import Mathlib

/-!
Verification of the KernelTalk broadcast channel (src/kerneltalk_mod.c).

The module implements a broadcast ring buffer: one byte buffer of capacity
KERNELTALK_BUF per server (channel), a write cursor `end`, and a list of
clients each holding its own read offset.  We embed the data model and the
read/write/poll/open/close paths as pure Lean functions, parametrised by the
capacity `N` (the C code fixes `N = KERNELTALK_BUF = 2048`; the spec also
exercises `N = 8`).
-/

/-- Capacity of the ring buffer in the C source (KERNELTALK_BUF). -/
def KERNELTALK_BUF : Nat := 2048

/-- The DIST macro of the source:
`DIST(a, b) = (a) <= (b) ? (b) - (a) : N + (b) - (a)`,
the forward circular distance from `a` to `b` in a buffer of capacity `N`. -/
def DIST (N a b : Nat) : Nat := if a ≤ b then b - a else N + b - a

/-- One chat client (struct kerneltalk_client): identified by its `struct file`
pointer, modelled as a numeric id, with its own read offset. -/
structure Client where
  id : Nat
  offset : Nat
deriving DecidableEq

/-- One chat server (struct kerneltalk_server): the byte buffer, the write
cursor `end` (a C keyword-free name `end_` is used), and the client list.
The buffer is modelled as a function from index to byte value. -/
structure Server where
  buffer : Nat → Nat
  end_ : Nat
  clients : List Client

/-- The loop body of `blocking_offset`: return the offset of the client with
the most unread data, starting from `maxunread = 0, offset = srv->end` and
scanning the client list in order, replacing the accumulator only on a
strictly larger unread count. -/
def blocking_offset (N : Nat) (srv : Server) : Nat :=
  (srv.clients.foldl
    (fun acc cnt =>
      if DIST N cnt.offset srv.end_ > acc.1 then
        (DIST N cnt.offset srv.end_, cnt.offset)
      else acc)
    (0, srv.end_)).2

/-- The function `room_to_write`: one slot before the blocking offset is the
hard ceiling; the room is the distance from `end` to that ceiling. -/
def room_to_write (N : Nat) (srv : Server) : Nat :=
  DIST N srv.end_ ((blocking_offset N srv + N - 1) % N)

/-- The function `create_client`: a new client starts at `offset = srv->end`
and is added at the head of the client list (list_add). -/
def create_client (cid : Nat) (srv : Server) : Client × Server :=
  let cnt : Client := { id := cid, offset := srv.end_ }
  (cnt, { srv with clients := cnt :: srv.clients })

/-- Error outcomes of the read/write paths.  EAGAIN is returned by the
non-blocking variants; Blocked marks the point where the blocking variant
suspends on its wait queue (no sequential progress is possible);
ERESTARTSYS is the interrupted-wait return. -/
inductive Err where
  | EAGAIN
  | Blocked
  | ERESTARTSYS
deriving DecidableEq

/-- The copy loop of `kerneltalk_write`:
while (room > 0 && amt > 0) \x7b buffer[end] = *usrbuf++; end = (end+1) % N;
amt--; room--; bytes_written++; \x7d.
Returns the new buffer, the new `end` and `bytes_written`. -/
def write_loop (N : Nat) (buffer : Nat → Nat) (e : Nat) :
    List Nat → Nat → (Nat → Nat) × Nat × Nat
  | _, 0 => (buffer, e, 0)
  | [], _ => (buffer, e, 0)
  | b :: rest, r + 1 =>
      let out := write_loop N (fun i => if i = e then b else buffer i) ((e + 1) % N) rest r
      (out.1, out.2.1, out.2.2 + 1)

/-- The function `kerneltalk_write` (with the blocking wait represented by
the Blocked outcome): if `room_to_write` is zero the call makes no progress
(EAGAIN when O_NONBLOCK, otherwise it suspends); otherwise it runs the copy
loop and returns the number of bytes written. -/
def kerneltalk_write (N : Nat) (nonblock : Bool) (srv : Server) (bytes : List Nat) :
    Server × Except Err Nat :=
  let room := room_to_write N srv
  if room = 0 then
    (srv, .error (if nonblock then .EAGAIN else .Blocked))
  else
    let out := write_loop N srv.buffer srv.end_ bytes room
    ({ srv with buffer := out.1, end_ := out.2.1 }, .ok out.2.2)

/-- The copy loop of `kerneltalk_read`:
while (length && DIST(offset, end) > 0) \x7b put_user(buffer[offset]);
length--; offset = (offset+1) % N; bytes_read++; \x7d.
Returns the bytes delivered to the user and the final offset. -/
def read_loop (N : Nat) (buffer : Nat → Nat) (e : Nat) :
    Nat → Nat → List Nat × Nat
  | off, 0 => ([], off)
  | off, l + 1 =>
      if DIST N off e > 0 then
        let out := read_loop N buffer e ((off + 1) % N) l
        (buffer off :: out.1, out.2)
      else ([], off)

/-- Update the registry entry of the client with the given id to a new
offset (the C code mutates the client struct in place; the struct is the
registry entry). -/
def setOffset (clients : List Client) (cid : Nat) (off : Nat) : List Client :=
  clients.map (fun c => if c.id = cid then { c with offset := off } else c)

/-- The function `kerneltalk_read` for the client `cnt` (obtained from
filp->private_data): if the caller has no unread data the call makes no
progress (EAGAIN when O_NONBLOCK, otherwise it suspends); otherwise it runs
the copy loop, stores the advanced offset back into the registry and
returns the bytes read. -/
def kerneltalk_read (N : Nat) (nonblock : Bool) (srv : Server) (cnt : Client) (length : Nat) :
    Server × Except Err (List Nat) :=
  if DIST N cnt.offset srv.end_ = 0 then
    (srv, .error (if nonblock then .EAGAIN else .Blocked))
  else
    let out := read_loop N srv.buffer srv.end_ cnt.offset length
    ({ srv with clients := setOffset srv.clients cnt.id out.2 }, .ok out.1)

/-- The function `kerneltalk_poll`: readable when the caller has unread
data, writable when there is room to write. -/
def kerneltalk_poll (N : Nat) (srv : Server) (cnt : Client) : Bool × Bool :=
  (decide (0 < DIST N cnt.offset srv.end_), decide (0 < room_to_write N srv))

/-- Operations on one channel, as invoked through the file operations. -/
inductive Op where
  | join (cid : Nat)
  | leave (cid : Nat)
  | write (bytes : List Nat)
  | read (cid : Nat) (length : Nat)

/-- Apply one operation to the server state: join is kerneltalk_open's
create_client, leave is kerneltalk_flush's list_del, write and read are the
non-blocking calls (their new state; their return value is dropped here). -/
def applyOp (N : Nat) (srv : Server) : Op → Server
  | .join cid => (create_client cid srv).2
  | .leave cid => { srv with clients := srv.clients.filter (fun c => !(c.id == cid)) }
  | .write bytes => (kerneltalk_write N true srv bytes).1
  | .read cid length =>
      match srv.clients.find? (fun c => c.id == cid) with
      | some cnt => (kerneltalk_read N true srv cnt length).1
      | none => srv

/-- A freshly created server (create_server): `end = 0`, no clients, and the
kmalloc-ed buffer holds arbitrary bytes, modelled as zero. -/
def init_server : Server :=
  { buffer := fun _ => 0, end_ := 0, clients := [] }

/-- States reachable from a fresh server by a sequence of join, leave, write
and read operations. -/
def Reachable (N : Nat) (srv : Server) : Prop :=
  ∃ ops : List Op, srv = ops.foldl (applyOp N) init_server

/-- Well-formedness of a server state: the write cursor and every client
offset lie in [0, N). -/
def WF (N : Nat) (srv : Server) : Prop :=
  srv.end_ < N ∧ ∀ c ∈ srv.clients, c.offset < N

/-- The maximum unread count over the client list (0 when empty). -/
def maxUnread (N e : Nat) (cs : List Client) : Nat :=
  cs.foldl (fun m c => max m (DIST N c.offset e)) 0

/-- Modelled from the spec words for claim C6: the offset of the first
consumer in registry iteration order whose unread count attains the
maximum; `end` when the registry is empty. -/
def slowest_offset_spec (N e : Nat) (cs : List Client) : Nat :=
  match cs.find? (fun c => DIST N c.offset e == maxUnread N e cs) with
  | some c => c.offset
  | none => e

/-- Total number of bytes in a list of byte sequences. -/
def totalLen (bss : List (List Nat)) : Nat := (bss.map List.length).sum

/-- Every write call in the sequence transfers its whole byte sequence
(the producer loops until each message is fully written, and here each
call happens to fit in the available room). -/
def allFull (N : Nat) : Server → List (List Nat) → Bool
  | _, [] => true
  | srv, bs :: rest =>
      let out := kerneltalk_write N true srv bs
      match out.2 with
      | .ok w => w == bs.length && allFull N out.1 rest
      | .error _ => false

/-- Apply a sequence of write calls, keeping the resulting states. -/
def writeAll (N : Nat) (srv : Server) (bss : List (List Nat)) : Server :=
  bss.foldl (fun s bs => (kerneltalk_write N true s bs).1) srv

/-- A consumer issuing a sequence of read calls with the given max lengths;
the client copy tracks the registry offset (the C client struct is mutated
in place by each read).  Reading stops at the first call that makes no
progress.  Returns the final server, the final client and all bytes
received in order. -/
def readSeq (N : Nat) : Server → Client → List Nat → Server × Client × List Nat
  | srv, cnt, [] => (srv, cnt, [])
  | srv, cnt, l :: ls =>
      let r := kerneltalk_read N true srv cnt l
      match r.2 with
      | .error _ => (r.1, cnt, [])
      | .ok bs =>
          let rest := readSeq N r.1 { cnt with offset := (cnt.offset + bs.length) % N } ls
          (rest.1, rest.2.1, bs ++ rest.2.2)

/-- The three locks touched by the channel paths. -/
inductive Lock where
  | server_list_lock
  | client_list_lock
  | buffer_lock
deriving DecidableEq

/-- Acquire/release events. -/
inductive LockEvent where
  | acq (l : Lock)
  | rel (l : Lock)
deriving DecidableEq

/-- Lock events of the kerneltalk_write success path, in source order:
down_write(&srv->buffer_lock); then room_to_write takes and releases
srv->client_list_lock; then up_write(&srv->buffer_lock). -/
def write_lock_trace : List LockEvent :=
  [.acq .buffer_lock, .acq .client_list_lock, .rel .client_list_lock, .rel .buffer_lock]

/-- Lock events of the kerneltalk_poll path, in source order:
down_write(&srv->buffer_lock); then room_to_write takes and releases
srv->client_list_lock; then up_write(&srv->buffer_lock). -/
def poll_lock_trace : List LockEvent :=
  [.acq .buffer_lock, .acq .client_list_lock, .rel .client_list_lock, .rel .buffer_lock]

/-- Lock events of the kerneltalk_open success path, in source order:
mutex_lock(&server_list_lock); create_client takes and releases
srv->client_list_lock; mutex_unlock(&server_list_lock). -/
def open_lock_trace : List LockEvent :=
  [.acq .server_list_lock, .acq .client_list_lock, .rel .client_list_lock,
   .rel .server_list_lock]

/-- All pairs (h, l) such that the trace acquires lock l at a moment when
lock h is already held. -/
def acquiredWhileHolding (tr : List LockEvent) : List (Lock × Lock) :=
  (tr.foldl
    (fun (acc : List Lock × List (Lock × Lock)) ev =>
      match ev with
      | .acq l => (l :: acc.1, acc.2 ++ acc.1.map (fun h => (h, l)))
      | .rel l => (acc.1.erase l, acc.2))
    ([], [])).2

/-! Arithmetic facts about the circular distance DIST. -/

theorem DIST_self (N a : Nat) : DIST N a a = 0 := by
  simp [DIST]

theorem DIST_lt (N a b : Nat) (ha : a < N) (hb : b < N) : DIST N a b < N := by
  unfold DIST; split <;> omega

theorem DIST_eq_zero_iff (N a b : Nat) (ha : a < N) (hb : b < N) :
    DIST N a b = 0 ↔ a = b := by
  unfold DIST; split <;> omega

theorem add_DIST_mod (N a b : Nat) (ha : a < N) (hb : b < N) :
    (a + DIST N a b) % N = b := by
  unfold DIST; split
  · have h : a + (b - a) = b := by omega
    rw [h, Nat.mod_eq_of_lt hb]
  · have h : a + (N + b - a) = N + b := by omega
    rw [h, Nat.add_mod_left, Nat.mod_eq_of_lt hb]

theorem DIST_unique (N a b d : Nat) (ha : a < N) (hb : b < N) (hd : d < N)
    (h : (a + d) % N = b) : DIST N a b = d := by
  have h2 := add_DIST_mod N a b ha hb
  have hlt := DIST_lt N a b ha hb
  have heq : (a + DIST N a b) % N = (a + d) % N := by rw [h2, h]
  have hc : DIST N a b ≡ d [MOD N] := Nat.ModEq.add_left_cancel' a heq
  rwa [Nat.ModEq, Nat.mod_eq_of_lt hlt, Nat.mod_eq_of_lt hd] at hc

theorem DIST_add_self (N e k : Nat) (he : e < N) (hk : k < N) :
    DIST N e ((e + k) % N) = k :=
  DIST_unique N e ((e + k) % N) k he (Nat.mod_lt _ (by omega)) hk rfl

theorem DIST_consume (N o e k : Nat) (ho : o < N) (he : e < N)
    (hk : k ≤ DIST N o e) : DIST N ((o + k) % N) e = DIST N o e - k := by
  have hlt := DIST_lt N o e ho he
  apply DIST_unique N _ e _ (Nat.mod_lt _ (by omega)) he (by omega)
  rw [Nat.mod_add_mod]
  have h : o + k + (DIST N o e - k) = o + DIST N o e := by omega
  rw [h, add_DIST_mod N o e ho he]

theorem DIST_succ_back (N e : Nat) (he : e < N) : DIST N ((e + 1) % N) e = N - 1 := by
  apply DIST_unique N _ e _ (Nat.mod_lt _ (by omega)) he (by omega)
  rw [Nat.mod_add_mod]
  have h : e + 1 + (N - 1) = N + e := by omega
  rw [h, Nat.add_mod_left, Nat.mod_eq_of_lt he]

/-! Facts about the blocking_offset scan and the room computation. -/

theorem foldl_max_le (N e B : Nat) (cs : List Client) :
    ∀ m : Nat, m ≤ B → (∀ c ∈ cs, DIST N c.offset e ≤ B) →
      cs.foldl (fun m c => max m (DIST N c.offset e)) m ≤ B := by
  induction cs with
  | nil => intro m hm _; simpa using hm
  | cons c rest ih =>
      intro m hm hB
      simp only [List.foldl_cons]
      exact ih _ (Nat.max_le.mpr ⟨hm, hB c (by simp)⟩)
        (fun c' hc' => hB c' (by simp [hc']))

theorem init_le_foldl_max (N e : Nat) (cs : List Client) :
    ∀ m : Nat, m ≤ cs.foldl (fun m c => max m (DIST N c.offset e)) m := by
  induction cs with
  | nil => intro m; simp
  | cons c rest ih =>
      intro m
      simp only [List.foldl_cons]
      exact le_trans (Nat.le_max_left _ _) (ih _)

theorem mem_le_foldl_max (N e : Nat) (cs : List Client) :
    ∀ m : Nat, ∀ c ∈ cs, DIST N c.offset e ≤
      cs.foldl (fun m c => max m (DIST N c.offset e)) m := by
  induction cs with
  | nil => intro m c hc; simp at hc
  | cons c0 rest ih =>
      intro m c hc
      simp only [List.foldl_cons]
      rcases List.mem_cons.mp hc with h | h
      · subst h
        exact le_trans (Nat.le_max_right _ _) (init_le_foldl_max N e rest _)
      · exact ih _ c h

theorem mem_le_maxUnread (N e : Nat) (cs : List Client) (c : Client) (hc : c ∈ cs) :
    DIST N c.offset e ≤ maxUnread N e cs :=
  mem_le_foldl_max N e cs 0 c hc

theorem maxUnread_le (N e : Nat) (cs : List Client) (hN : 0 < N) (he : e < N)
    (hwf : ∀ c ∈ cs, c.offset < N) : maxUnread N e cs ≤ N - 1 :=
  foldl_max_le N e (N - 1) cs 0 (by omega)
    (fun c hc => by have := DIST_lt N c.offset e (hwf c hc) he; omega)

theorem blocking_fold (N e : Nat) (he : e < N) (cs : List Client) :
    ∀ m o : Nat, o < N → DIST N o e = m → (∀ c ∈ cs, c.offset < N) →
      (cs.foldl (fun acc cnt =>
          if DIST N cnt.offset e > acc.1 then (DIST N cnt.offset e, cnt.offset)
          else acc) (m, o)).2 < N ∧
      DIST N (cs.foldl (fun acc cnt =>
          if DIST N cnt.offset e > acc.1 then (DIST N cnt.offset e, cnt.offset)
          else acc) (m, o)).2 e =
        (cs.foldl (fun acc cnt =>
          if DIST N cnt.offset e > acc.1 then (DIST N cnt.offset e, cnt.offset)
          else acc) (m, o)).1 ∧
      (cs.foldl (fun acc cnt =>
          if DIST N cnt.offset e > acc.1 then (DIST N cnt.offset e, cnt.offset)
          else acc) (m, o)).1 =
        cs.foldl (fun m c => max m (DIST N c.offset e)) m := by
  induction cs with
  | nil => intro m o ho hd _; exact ⟨ho, hd, rfl⟩
  | cons c rest ih =>
      intro m o ho hd hwf
      simp only [List.foldl_cons]
      by_cases h : DIST N c.offset e > m
      · rw [if_pos h, Nat.max_eq_right (le_of_lt h)]
        exact ih (DIST N c.offset e) c.offset (hwf c (by simp)) rfl
          (fun c' hc' => hwf c' (by simp [hc']))
      · rw [if_neg h, Nat.max_eq_left (Nat.le_of_not_lt h)]
        exact ih m o ho hd (fun c' hc' => hwf c' (by simp [hc']))

theorem blocking_offset_attains (N : Nat) (srv : Server) (hwf : WF N srv) :
    blocking_offset N srv < N ∧
    DIST N (blocking_offset N srv) srv.end_ = maxUnread N srv.end_ srv.clients := by
  obtain ⟨he, hc⟩ := hwf
  have h := blocking_fold N srv.end_ he srv.clients 0 srv.end_ he
    (DIST_self N srv.end_) hc
  exact ⟨h.1, h.2.1.trans h.2.2⟩

theorem room_eq (N : Nat) (srv : Server) (hN : 0 < N) (hwf : WF N srv) :
    room_to_write N srv = N - 1 - maxUnread N srv.end_ srv.clients := by
  obtain ⟨hs, hd⟩ := blocking_offset_attains N srv hwf
  obtain ⟨he, hc⟩ := hwf
  have hu : maxUnread N srv.end_ srv.clients ≤ N - 1 := maxUnread_le N srv.end_ srv.clients hN he hc
  unfold room_to_write
  apply DIST_unique N srv.end_ _ _ he (Nat.mod_lt _ hN) (by omega)
  have hse : (blocking_offset N srv + maxUnread N srv.end_ srv.clients) % N = srv.end_ := by
    rw [← hd]; exact add_DIST_mod N (blocking_offset N srv) srv.end_ hs he
  nth_rewrite 1 [← hse]
  rw [Nat.mod_add_mod]
  congr 1
  omega

/-! Characterisation of the write copy loop. -/

theorem write_loop_count (N : Nat) (bytes : List Nat) :
    ∀ (room : Nat) (buffer : Nat → Nat) (e : Nat),
      (write_loop N buffer e bytes room).2.2 = min room bytes.length := by
  induction bytes with
  | nil => intro room buffer e; cases room <;> simp [write_loop]
  | cons b rest ih =>
      intro room buffer e
      cases room with
      | zero => simp [write_loop]
      | succ r =>
          simp only [write_loop, ih, List.length_cons]
          omega

theorem write_loop_end (N : Nat) (bytes : List Nat) :
    ∀ (room : Nat) (buffer : Nat → Nat) (e : Nat), e < N →
      (write_loop N buffer e bytes room).2.1 = (e + min room bytes.length) % N := by
  induction bytes with
  | nil =>
      intro room buffer e he
      cases room <;> simp [write_loop, Nat.mod_eq_of_lt he]
  | cons b rest ih =>
      intro room buffer e he
      cases room with
      | zero => simp [write_loop, Nat.mod_eq_of_lt he]
      | succ r =>
          simp only [write_loop, List.length_cons]
          rw [ih r _ ((e + 1) % N) (Nat.mod_lt _ (by omega)), Nat.mod_add_mod]
          congr 1
          omega

theorem write_loop_unchanged (N : Nat) (bytes : List Nat) :
    ∀ (room : Nat) (buffer : Nat → Nat) (e p : Nat), e < N → p < N →
      min room bytes.length ≤ DIST N e p →
      (write_loop N buffer e bytes room).1 p = buffer p := by
  induction bytes with
  | nil => intro room buffer e p _ _ _; cases room <;> simp [write_loop]
  | cons b rest ih =>
      intro room buffer e p he hp hmin
      cases room with
      | zero => simp [write_loop]
      | succ r =>
          simp only [write_loop, List.length_cons] at hmin ⊢
          have hm : min (r + 1) (rest.length + 1) = min r rest.length + 1 := by omega
          rw [hm] at hmin
          have hne : p ≠ e := by
            intro hpe
            rw [hpe, DIST_self] at hmin
            omega
          have hstep : DIST N ((e + 1) % N) p = DIST N e p - 1 :=
            DIST_consume N e p 1 he hp (by omega)
          rw [ih r _ ((e + 1) % N) p (Nat.mod_lt _ (by omega)) hp (by omega)]
          simp [if_neg hne]

theorem write_loop_content (N : Nat) (bytes : List Nat) :
    ∀ (room : Nat) (buffer : Nat → Nat) (e : Nat), e < N →
      min room bytes.length ≤ N →
      ∀ j, j < min room bytes.length →
        (write_loop N buffer e bytes room).1 ((e + j) % N) = bytes.getD j 0 := by
  induction bytes with
  | nil => intro room buffer e _ _ j hj; simp at hj
  | cons b rest ih =>
      intro room buffer e he hN0 j hj
      cases room with
      | zero => simp at hj
      | succ r =>
          simp only [List.length_cons] at hN0 hj
          have hm : min (r + 1) (rest.length + 1) = min r rest.length + 1 := by omega
          rw [hm] at hN0 hj
          simp only [write_loop]
          cases j with
          | zero =>
              have h1 : (write_loop N (fun i => if i = e then b else buffer i)
                  ((e + 1) % N) rest r).1 e = b := by
                rw [write_loop_unchanged N rest r _ ((e + 1) % N) e
                  (Nat.mod_lt _ (by omega)) he
                  (by rw [DIST_succ_back N e he]; omega)]
                simp
              simp only [Nat.add_zero, Nat.mod_eq_of_lt he, h1, List.getD_cons_zero]
          | succ j' =>
              have hrw : (e + (j' + 1)) % N = ((e + 1) % N + j') % N := by
                rw [Nat.mod_add_mod]
                congr 1
                omega
              rw [hrw, ih r _ ((e + 1) % N) (Nat.mod_lt _ (by omega)) (by omega) j' (by omega)]
              simp

/-! Characterisation of the read copy loop. -/

theorem read_loop_spec (N : Nat) (buffer : Nat → Nat) (e : Nat) (he : e < N) :
    ∀ (length off : Nat), off < N →
      (read_loop N buffer e off length).1 =
        (List.range (min (DIST N off e) length)).map (fun j => buffer ((off + j) % N)) ∧
      (read_loop N buffer e off length).2 = (off + min (DIST N off e) length) % N := by
  intro length
  induction length with
  | zero =>
      intro off ho
      refine ⟨by simp [read_loop], ?_⟩
      simp [read_loop, Nat.mod_eq_of_lt ho]
  | succ l ih =>
      intro off ho
      by_cases hd : DIST N off e > 0
      · obtain ⟨ih1, ih2⟩ := ih ((off + 1) % N) (Nat.mod_lt _ (by omega))
        have hstep : DIST N ((off + 1) % N) e = DIST N off e - 1 :=
          DIST_consume N off e 1 ho he (by omega)
        have hmin : min (DIST N off e) (l + 1) = min (DIST N off e - 1) l + 1 := by omega
        constructor
        · simp only [read_loop, if_pos hd]
          rw [ih1, hstep, hmin, List.range_succ_eq_map, List.map_cons, List.map_map]
          congr 1
          · rw [Nat.add_zero, Nat.mod_eq_of_lt ho]
          · apply List.map_congr_left
            intro j _
            simp only [Function.comp]
            rw [Nat.mod_add_mod]
            congr 2
            omega
        · simp only [read_loop, if_pos hd]
          rw [ih2, hstep, hmin, Nat.mod_add_mod]
          congr 1
          omega
      · have h0 : DIST N off e = 0 := by omega
        constructor
        · simp [read_loop, h0]
        · simp [read_loop, h0, Nat.mod_eq_of_lt ho]

/-! Characterisation of the full write and read operations. -/

theorem room_to_write_lt (N : Nat) (srv : Server) (hN : 0 < N) (he : srv.end_ < N) :
    room_to_write N srv < N :=
  DIST_lt N srv.end_ _ he (Nat.mod_lt _ hN)

theorem kerneltalk_write_ok (N : Nat) (nb : Bool) (srv : Server) (bytes : List Nat)
    (hN : 0 < N) (he : srv.end_ < N) (hroom : room_to_write N srv ≠ 0) :
    (kerneltalk_write N nb srv bytes).2 = .ok (min (room_to_write N srv) bytes.length) ∧
    (kerneltalk_write N nb srv bytes).1.end_ =
      (srv.end_ + min (room_to_write N srv) bytes.length) % N ∧
    (kerneltalk_write N nb srv bytes).1.clients = srv.clients ∧
    (∀ j, j < min (room_to_write N srv) bytes.length →
      (kerneltalk_write N nb srv bytes).1.buffer ((srv.end_ + j) % N) = bytes.getD j 0) ∧
    (∀ p, p < N → min (room_to_write N srv) bytes.length ≤ DIST N srv.end_ p →
      (kerneltalk_write N nb srv bytes).1.buffer p = srv.buffer p) := by
  have hlt := room_to_write_lt N srv hN he
  unfold kerneltalk_write
  simp only [if_neg hroom]
  refine ⟨?_, ?_, ?_, ?_, ?_⟩
  · rw [write_loop_count]
  · exact write_loop_end N bytes _ _ _ he
  · trivial
  · intro j hj
    exact write_loop_content N bytes _ _ _ he (by omega) j hj
  · intro p hp hge
    exact write_loop_unchanged N bytes _ _ _ p he hp hge

theorem kerneltalk_write_blocked (N : Nat) (nb : Bool) (srv : Server) (bytes : List Nat)
    (hroom : room_to_write N srv = 0) :
    kerneltalk_write N nb srv bytes =
      (srv, .error (if nb then .EAGAIN else .Blocked)) := by
  unfold kerneltalk_write
  simp [hroom]

theorem kerneltalk_read_ok (N : Nat) (nb : Bool) (srv : Server) (cnt : Client)
    (length : Nat) (he : srv.end_ < N) (ho : cnt.offset < N)
    (hu : DIST N cnt.offset srv.end_ ≠ 0) :
    (kerneltalk_read N nb srv cnt length).2 =
      .ok ((List.range (min (DIST N cnt.offset srv.end_) length)).map
        (fun j => srv.buffer ((cnt.offset + j) % N))) ∧
    (kerneltalk_read N nb srv cnt length).1.end_ = srv.end_ ∧
    (kerneltalk_read N nb srv cnt length).1.buffer = srv.buffer ∧
    (kerneltalk_read N nb srv cnt length).1.clients =
      setOffset srv.clients cnt.id
        ((cnt.offset + min (DIST N cnt.offset srv.end_) length) % N) := by
  obtain ⟨h1, h2⟩ := read_loop_spec N srv.buffer srv.end_ he length cnt.offset ho
  unfold kerneltalk_read
  simp only [if_neg hu]
  refine ⟨?_, ?_, ?_, ?_⟩
  · rw [h1]
  · trivial
  · trivial
  · rw [h2]

theorem kerneltalk_read_blocked (N : Nat) (nb : Bool) (srv : Server) (cnt : Client)
    (length : Nat) (hu : DIST N cnt.offset srv.end_ = 0) :
    kerneltalk_read N nb srv cnt length =
      (srv, .error (if nb then .EAGAIN else .Blocked)) := by
  unfold kerneltalk_read
  simp [hu]

/-! The no-overwrite property of a single write call. -/

theorem write_no_overwrite (N : Nat) (nb : Bool) (srv : Server) (bytes : List Nat)
    (hN : 0 < N) (hwf : WF N srv) :
    DIST N srv.end_ (kerneltalk_write N nb srv bytes).1.end_ ≤
      DIST N srv.end_ ((blocking_offset N srv + N - 1) % N) ∧
    ∀ c ∈ srv.clients, ∀ j, j < DIST N c.offset srv.end_ →
      (kerneltalk_write N nb srv bytes).1.buffer ((c.offset + j) % N) =
        srv.buffer ((c.offset + j) % N) := by
  obtain ⟨he, hc⟩ := hwf
  by_cases hroom : room_to_write N srv = 0
  · rw [kerneltalk_write_blocked N nb srv bytes hroom]
    exact ⟨by rw [DIST_self]; omega, fun c _ j _ => rfl⟩
  · obtain ⟨-, hend, -, -, hunch⟩ :=
      kerneltalk_write_ok N nb srv bytes hN he hroom
    have hlt := room_to_write_lt N srv hN he
    have hre := room_eq N srv hN ⟨he, hc⟩
    constructor
    · rw [hend, DIST_add_self N srv.end_ _ he (by omega)]
      have : DIST N srv.end_ ((blocking_offset N srv + N - 1) % N) =
          room_to_write N srv := rfl
      omega
    · intro c hcm j hj
      have hco : c.offset < N := hc c hcm
      have hcu : DIST N c.offset srv.end_ ≤ maxUnread N srv.end_ srv.clients :=
        mem_le_maxUnread N srv.end_ srv.clients c hcm
      have hcd : DIST N c.offset srv.end_ < N := DIST_lt N c.offset srv.end_ hco he
      apply hunch _ (Nat.mod_lt _ hN)
      have hdp : DIST N srv.end_ ((c.offset + j) % N) =
          N - DIST N c.offset srv.end_ + j := by
        apply DIST_unique N srv.end_ _ _ he (Nat.mod_lt _ hN) (by omega)
        have hoe : (c.offset + DIST N c.offset srv.end_) % N = srv.end_ :=
          add_DIST_mod N c.offset srv.end_ hco he
        nth_rewrite 1 [← hoe]
        rw [Nat.mod_add_mod]
        have harith : c.offset + DIST N c.offset srv.end_ +
            (N - DIST N c.offset srv.end_ + j) = N + (c.offset + j) := by omega
        rw [harith, Nat.add_mod_left]
      rw [hdp]
      omega

/-! Preservation of well-formedness along every operation sequence. -/

theorem applyOp_WF (N : Nat) (hN : 0 < N) (srv : Server) (hwf : WF N srv) (op : Op) :
    WF N (applyOp N srv op) := by
  obtain ⟨he, hc⟩ := hwf
  cases op with
  | join cid =>
      refine ⟨he, ?_⟩
      intro c hcm
      rcases List.mem_cons.mp hcm with h | h
      · subst h; exact he
      · exact hc c h
  | leave cid =>
      exact ⟨he, fun c h => hc c (List.mem_of_mem_filter h)⟩
  | write bytes =>
      by_cases hroom : room_to_write N srv = 0
      · show WF N (kerneltalk_write N true srv bytes).1
        rw [kerneltalk_write_blocked N true srv bytes hroom]
        exact ⟨he, hc⟩
      · obtain ⟨-, hend, hcl, -, -⟩ := kerneltalk_write_ok N true srv bytes hN he hroom
        show WF N (kerneltalk_write N true srv bytes).1
        refine ⟨by rw [hend]; exact Nat.mod_lt _ hN, ?_⟩
        rw [hcl]
        exact hc
  | read cid length =>
      simp only [applyOp]
      cases hf : srv.clients.find? (fun c => c.id == cid) with
      | none => exact ⟨he, hc⟩
      | some cnt =>
          show WF N (kerneltalk_read N true srv cnt length).1
          have hcm : cnt ∈ srv.clients := List.mem_of_find?_eq_some hf
          have hco : cnt.offset < N := hc cnt hcm
          by_cases hu : DIST N cnt.offset srv.end_ = 0
          · rw [kerneltalk_read_blocked N true srv cnt length hu]
            exact ⟨he, hc⟩
          · obtain ⟨-, hend, -, hcl⟩ :=
              kerneltalk_read_ok N true srv cnt length he hco hu
            refine ⟨by rw [hend]; exact he, ?_⟩
            rw [hcl]
            intro c' hc'
            obtain ⟨c0, hc0m, hc0e⟩ := List.mem_map.mp hc'
            by_cases hid : c0.id = cnt.id
            · rw [← hc0e]
              simp only [setOffset, if_pos hid]
              exact Nat.mod_lt _ hN
            · rw [← hc0e]
              simp only [setOffset, if_neg hid]
              exact hc c0 hc0m

theorem reachable_WF (N : Nat) (hN : 0 < N) (srv : Server) (h : Reachable N srv) :
    WF N srv := by
  obtain ⟨ops, rfl⟩ := h
  have hstep : ∀ (ops : List Op) (s : Server), WF N s →
      WF N (ops.foldl (applyOp N) s) := by
    intro ops
    induction ops with
    | nil => intro s hs; simpa using hs
    | cons op rest ih =>
        intro s hs
        simp only [List.foldl_cons]
        exact ih _ (applyOp_WF N hN s hs op)
  exact hstep ops init_server ⟨hN, by intro c hcm; simp [init_server] at hcm⟩

/-! Multi-write and drain-read reasoning for the completeness claim. -/

theorem totalLen_cons (bs : List Nat) (rest : List (List Nat)) :
    totalLen (bs :: rest) = bs.length + totalLen rest := by
  simp [totalLen]

theorem range_map_getD (l : List Nat) :
    (List.range l.length).map (fun j => l.getD j 0) = l := by
  induction l with
  | nil => simp
  | cons a rest ih =>
      rw [List.length_cons, List.range_succ_eq_map, List.map_cons, List.map_map]
      have h : ∀ j ∈ List.range rest.length,
          ((fun j => (a :: rest).getD j 0) ∘ Nat.succ) j = rest.getD j 0 := by
        intro j _
        simp
      rw [List.map_congr_left h, ih]
      simp

theorem allFull_cons (N : Nat) (srv : Server) (bs : List Nat) (rest : List (List Nat))
    (h : allFull N srv (bs :: rest) = true) :
    (kerneltalk_write N true srv bs).2 = .ok bs.length ∧
    allFull N (kerneltalk_write N true srv bs).1 rest = true := by
  simp only [allFull] at h
  cases hw : (kerneltalk_write N true srv bs).2 with
  | error e => rw [hw] at h; simp at h
  | ok w =>
      rw [hw] at h
      simp only [Bool.and_eq_true, beq_iff_eq] at h
      exact ⟨by rw [h.1], h.2⟩

theorem writeAll_region (N : Nat) (hN : 0 < N) (off : Nat) (hoff : off < N)
    (bss : List (List Nat)) :
    ∀ (srv : Server) (t : Nat),
      srv.end_ = (off + t) % N →
      allFull N srv bss = true →
      t + totalLen bss ≤ N - 1 →
      (writeAll N srv bss).end_ = (off + (t + totalLen bss)) % N ∧
      (writeAll N srv bss).clients = srv.clients ∧
      (∀ j, j < t →
        (writeAll N srv bss).buffer ((off + j) % N) = srv.buffer ((off + j) % N)) ∧
      (∀ j, j < totalLen bss →
        (writeAll N srv bss).buffer ((off + (t + j)) % N) = bss.flatten.getD j 0) := by
  induction bss with
  | nil =>
      intro srv t hend _ _
      refine ⟨?_, rfl, fun j _ => rfl, fun j hj => by simp [totalLen] at hj⟩
      simpa [writeAll, totalLen] using hend
  | cons bs rest ih =>
      intro srv t hend hfull htot
      obtain ⟨hok, hrest⟩ := allFull_cons N srv bs rest hfull
      rw [totalLen_cons] at htot
      have hroom : room_to_write N srv ≠ 0 := by
        intro h0
        rw [kerneltalk_write_blocked N true srv bs h0] at hok
        exact Except.noConfusion hok
      have he : srv.end_ < N := by rw [hend]; exact Nat.mod_lt _ hN
      obtain ⟨hcnt, hend1, hcl1, hcontent, hunch⟩ :=
        kerneltalk_write_ok N true srv bs hN he hroom
      have hmin : min (room_to_write N srv) bs.length = bs.length := by
        rw [hcnt] at hok
        exact Except.ok.inj hok
      rw [hmin] at hend1 hcontent hunch
      have hend1' : (kerneltalk_write N true srv bs).1.end_ =
          (off + (t + bs.length)) % N := by
        rw [hend1, hend, Nat.mod_add_mod]
        congr 1
        omega
      have hW : writeAll N srv (bs :: rest) =
          writeAll N (kerneltalk_write N true srv bs).1 rest := rfl
      obtain ⟨ih1, ih2, ih3, ih4⟩ :=
        ih (kerneltalk_write N true srv bs).1 (t + bs.length) hend1' hrest (by omega)
      rw [hW]
      refine ⟨?_, ?_, ?_, ?_⟩
      · rw [ih1, totalLen_cons]
        congr 1
        omega
      · rw [ih2, hcl1]
      · intro j hj
        rw [ih3 j (by omega)]
        apply hunch ((off + j) % N) (Nat.mod_lt _ hN)
        have hd : DIST N srv.end_ ((off + j) % N) = N - t + j := by
          rw [hend]
          apply DIST_unique N _ _ _ (Nat.mod_lt _ hN) (Nat.mod_lt _ hN) (by omega)
          rw [Nat.mod_add_mod]
          have harith : off + t + (N - t + j) = N + (off + j) := by omega
          rw [harith, Nat.add_mod_left]
        omega
      · intro j hj
        rw [totalLen_cons] at hj
        by_cases hcase : j < bs.length
        · rw [ih3 (t + j) (by omega)]
          have hpos : (off + (t + j)) % N = (srv.end_ + j) % N := by
            rw [hend, Nat.mod_add_mod]
            congr 1
            omega
          rw [hpos, hcontent j (by omega), List.flatten_cons,
            List.getD_append bs rest.flatten 0 j hcase]
        · obtain ⟨j', rfl⟩ : ∃ j', j = bs.length + j' :=
            ⟨j - bs.length, by omega⟩
          have hpos : (off + (t + (bs.length + j'))) % N =
              (off + (t + bs.length + j')) % N := by
            congr 1
            omega
          rw [hpos, ih4 j' (by omega), List.flatten_cons,
            List.getD_append_right bs rest.flatten 0 (bs.length + j') (by omega)]
          congr 1
          omega

theorem readSeq_spec (N : Nat) (hN : 0 < N) (lens : List Nat) :
    ∀ (srv : Server) (cnt : Client), srv.end_ < N → cnt.offset < N →
      (readSeq N srv cnt lens).1.end_ = srv.end_ ∧
      (readSeq N srv cnt lens).1.buffer = srv.buffer ∧
      (readSeq N srv cnt lens).2.1.offset < N ∧
      (DIST N (readSeq N srv cnt lens).2.1.offset srv.end_ = 0 →
        (readSeq N srv cnt lens).2.2 =
          (List.range (DIST N cnt.offset srv.end_)).map
            (fun j => srv.buffer ((cnt.offset + j) % N))) := by
  induction lens with
  | nil =>
      intro srv cnt he ho
      refine ⟨rfl, rfl, ho, ?_⟩
      intro h0
      simp only [readSeq] at h0 ⊢
      rw [h0]
      simp
  | cons l ls ih =>
      intro srv cnt he ho
      by_cases hu : DIST N cnt.offset srv.end_ = 0
      · have hb := kerneltalk_read_blocked N true srv cnt l hu
        simp only [readSeq, hb]
        refine ⟨by trivial, by trivial, ho, ?_⟩
        intro _
        rw [hu]
        simp
      · obtain ⟨hok, hend, hbuf, hcl⟩ := kerneltalk_read_ok N true srv cnt l he ho hu
        have hk : min (DIST N cnt.offset srv.end_) l ≤ DIST N cnt.offset srv.end_ :=
          Nat.min_le_left _ _
        set BS := (List.range (min (DIST N cnt.offset srv.end_) l)).map
          (fun j => srv.buffer ((cnt.offset + j) % N)) with hBS
        have hlen : BS.length = min (DIST N cnt.offset srv.end_) l := by
          rw [hBS]
          simp
        simp only [readSeq, hok]
        set cnt' : Client := { cnt with offset := (cnt.offset + BS.length) % N } with hcd
        have ho' : cnt'.offset < N := Nat.mod_lt _ hN
        have he1 : (kerneltalk_read N true srv cnt l).1.end_ < N := by
          rw [hend]
          exact he
        obtain ⟨ih1, ih2, ih3, ih4⟩ := ih (kerneltalk_read N true srv cnt l).1 cnt' he1 ho'
        rw [hend] at ih1 ih4
        rw [hbuf] at ih2 ih4
        refine ⟨ih1, ih2, ih3, ?_⟩
        intro h0
        rw [ih4 h0]
        have hoff' : cnt'.offset = (cnt.offset + min (DIST N cnt.offset srv.end_) l) % N := by
          rw [hcd, hlen]
        have hconsume : DIST N cnt'.offset srv.end_ =
            DIST N cnt.offset srv.end_ - min (DIST N cnt.offset srv.end_) l := by
          rw [hoff']
          exact DIST_consume N cnt.offset srv.end_ _ ho he hk
        rw [hconsume]
        have hsplit : DIST N cnt.offset srv.end_ =
            min (DIST N cnt.offset srv.end_) l +
              (DIST N cnt.offset srv.end_ - min (DIST N cnt.offset srv.end_) l) := by
          omega
        conv_rhs => rw [hsplit, List.range_add, List.map_append]
        congr 1
        rw [List.map_map]
        apply List.map_congr_left
        intro j _
        simp only [Function.comp]
        rw [hlen, Nat.mod_add_mod]
        congr 2
        omega

/-! The slowest-consumer scan agrees with its specification. -/

theorem DIST_inj (N a a' b : Nat) (ha : a < N) (ha' : a' < N) (hb : b < N)
    (h : DIST N a b = DIST N a' b) : a = a' := by
  have h1 := add_DIST_mod N a b ha hb
  have h2 := add_DIST_mod N a' b ha' hb
  rw [h] at h1
  have hc : a ≡ a' [MOD N] :=
    Nat.ModEq.add_right_cancel' (DIST N a' b) (h1.trans h2.symm)
  rwa [Nat.ModEq, Nat.mod_eq_of_lt ha, Nat.mod_eq_of_lt ha'] at hc

theorem foldl_max_attained (N e : Nat) (cs : List Client) :
    ∀ m : Nat,
      cs.foldl (fun m c => max m (DIST N c.offset e)) m = m ∨
      ∃ c ∈ cs, cs.foldl (fun m c => max m (DIST N c.offset e)) m =
        DIST N c.offset e := by
  induction cs with
  | nil => intro m; left; rfl
  | cons c rest ih =>
      intro m
      simp only [List.foldl_cons]
      rcases ih (max m (DIST N c.offset e)) with h | ⟨c', hc', h⟩
      · by_cases hcm : DIST N c.offset e ≤ m
        · left
          rw [h, Nat.max_eq_left hcm]
        · right
          exact ⟨c, by simp, by rw [h, Nat.max_eq_right (by omega)]⟩
      · right
        exact ⟨c', by simp [hc'], h⟩

theorem maxUnread_attained (N e : Nat) (cs : List Client) (hne : cs ≠ []) :
    ∃ c ∈ cs, DIST N c.offset e = maxUnread N e cs := by
  rcases foldl_max_attained N e cs 0 with h | ⟨c, hc, h⟩
  · cases cs with
    | nil => exact absurd rfl hne
    | cons c0 rest =>
        refine ⟨c0, by simp, ?_⟩
        have hle := mem_le_maxUnread N e (c0 :: rest) c0 (by simp)
        have : maxUnread N e (c0 :: rest) = 0 := h
        omega
  · exact ⟨c, hc, h.symm⟩

theorem blocking_offset_eq_spec (N : Nat) (srv : Server) (hN : 0 < N) (hwf : WF N srv) :
    blocking_offset N srv = slowest_offset_spec N srv.end_ srv.clients := by
  obtain ⟨hbo, hbd⟩ := blocking_offset_attains N srv hwf
  obtain ⟨he, hc⟩ := hwf
  unfold slowest_offset_spec
  cases hf : srv.clients.find?
      (fun c => DIST N c.offset srv.end_ == maxUnread N srv.end_ srv.clients) with
  | none =>
      cases hcs : srv.clients with
      | nil =>
          unfold blocking_offset
          rw [hcs]
          rfl
      | cons c0 rest =>
          exfalso
          obtain ⟨c, hcm, hcd⟩ :=
            maxUnread_attained N srv.end_ srv.clients (by rw [hcs]; simp)
          have hnone := List.find?_eq_none.mp hf c hcm
          simp [hcd] at hnone
  | some c =>
      have hcp := List.find?_some hf
      have hcm := List.mem_of_find?_eq_some hf
      simp only [beq_iff_eq] at hcp
      exact DIST_inj N (blocking_offset N srv) c.offset srv.end_ hbo (hc c hcm) he
        (by rw [hbd, hcp])

/-! Claim theorems. -/

/-- C1: No-overwrite invariant: in every server state reachable by a sequence
of write, read, join and leave operations, a write call never advances `end`
past one slot before the blocking offset (the slowest consumer minus one,
mod N), and the unread bytes of every live consumer are left untouched in
the buffer. -/
theorem c1_no_overwrite (N : Nat) (hN : 0 < N) (srv : Server)
    (hreach : Reachable N srv) (nb : Bool) (bytes : List Nat) :
    DIST N srv.end_ (kerneltalk_write N nb srv bytes).1.end_ ≤
      DIST N srv.end_ ((blocking_offset N srv + N - 1) % N) ∧
    ∀ c ∈ srv.clients, ∀ j, j < DIST N c.offset srv.end_ →
      (kerneltalk_write N nb srv bytes).1.buffer ((c.offset + j) % N) =
        srv.buffer ((c.offset + j) % N) :=
  write_no_overwrite N nb srv bytes hN (reachable_WF N hN srv hreach)

/-- Witness for C1 at capacity 8, in the state reached by a join followed by
a write of two bytes, writing one further byte. -/
theorem c1_no_overwrite_witness :
    DIST 8 (List.foldl (applyOp 8) init_server [Op.join 0, Op.write [1, 2]]).end_
      (kerneltalk_write 8 true
        (List.foldl (applyOp 8) init_server [Op.join 0, Op.write [1, 2]]) [5]).1.end_ ≤
      DIST 8 (List.foldl (applyOp 8) init_server [Op.join 0, Op.write [1, 2]]).end_
        ((blocking_offset 8
          (List.foldl (applyOp 8) init_server [Op.join 0, Op.write [1, 2]]) + 8 - 1) % 8) ∧
    ∀ c ∈ (List.foldl (applyOp 8) init_server [Op.join 0, Op.write [1, 2]]).clients,
      ∀ j, j < DIST 8 c.offset
          (List.foldl (applyOp 8) init_server [Op.join 0, Op.write [1, 2]]).end_ →
        (kerneltalk_write 8 true
          (List.foldl (applyOp 8) init_server [Op.join 0, Op.write [1, 2]]) [5]).1.buffer
            ((c.offset + j) % 8) =
          (List.foldl (applyOp 8) init_server [Op.join 0, Op.write [1, 2]]).buffer
            ((c.offset + j) % 8) :=
  c1_no_overwrite 8 (by decide) _ ⟨[Op.join 0, Op.write [1, 2]], rfl⟩ true [5]

/-- C3: Write postcondition: with positive room, a write call returns
min(room, len(bytes)), advances `end` by exactly that count mod N, leaves
the client list unchanged, stores the transferred bytes starting at the old
`end`, and touches no buffer position at or beyond the transferred region. -/
theorem c3_write_postcondition (N : Nat) (hN : 0 < N) (srv : Server) (hwf : WF N srv)
    (nb : Bool) (bytes : List Nat) (hroom : 0 < room_to_write N srv) :
    (kerneltalk_write N nb srv bytes).2 =
      .ok (min (room_to_write N srv) bytes.length) ∧
    (kerneltalk_write N nb srv bytes).1.end_ =
      (srv.end_ + min (room_to_write N srv) bytes.length) % N ∧
    (kerneltalk_write N nb srv bytes).1.clients = srv.clients ∧
    (∀ j, j < min (room_to_write N srv) bytes.length →
      (kerneltalk_write N nb srv bytes).1.buffer ((srv.end_ + j) % N) =
        bytes.getD j 0) ∧
    (∀ p, p < N → min (room_to_write N srv) bytes.length ≤ DIST N srv.end_ p →
      (kerneltalk_write N nb srv bytes).1.buffer p = srv.buffer p) :=
  kerneltalk_write_ok N nb srv bytes hN hwf.1 (by omega)

/-- Witness for C3: one consumer at offset 0 with `end` 0 in a buffer of
capacity 8 leaves room 7; writing two bytes returns the count 2. -/
theorem c3_write_postcondition_witness :
    (kerneltalk_write 8 true
      { buffer := fun _ => 0, end_ := 0, clients := [{ id := 0, offset := 0 }] }
      [3, 4]).2 =
    .ok (min (room_to_write 8
      { buffer := fun _ => 0, end_ := 0, clients := [{ id := 0, offset := 0 }] })
      [3, 4].length) :=
  (c3_write_postcondition 8 (by decide)
    { buffer := fun _ => 0, end_ := 0, clients := [{ id := 0, offset := 0 }] }
    (by constructor <;> decide) true [3, 4] (by decide)).1

/-- C4: Read postcondition: with positive unread count, a read call returns
the min(unread, max_len) bytes starting at the caller's offset, leaves `end`
and the buffer unchanged, advances only the caller's registry offset by the
transferred count mod N, and keeps every other consumer's entry. -/
theorem c4_read_postcondition (N : Nat) (hN : 0 < N) (srv : Server) (hwf : WF N srv)
    (nb : Bool) (cnt : Client) (hmem : cnt ∈ srv.clients) (max_len : Nat)
    (hu : 0 < DIST N cnt.offset srv.end_) :
    (kerneltalk_read N nb srv cnt max_len).2 =
      .ok ((List.range (min (DIST N cnt.offset srv.end_) max_len)).map
        (fun j => srv.buffer ((cnt.offset + j) % N))) ∧
    (kerneltalk_read N nb srv cnt max_len).1.end_ = srv.end_ ∧
    (kerneltalk_read N nb srv cnt max_len).1.buffer = srv.buffer ∧
    (kerneltalk_read N nb srv cnt max_len).1.clients =
      setOffset srv.clients cnt.id
        ((cnt.offset + min (DIST N cnt.offset srv.end_) max_len) % N) ∧
    ∀ c ∈ srv.clients, c.id ≠ cnt.id →
      c ∈ (kerneltalk_read N nb srv cnt max_len).1.clients := by
  obtain ⟨h1, h2, h3, h4⟩ :=
    kerneltalk_read_ok N nb srv cnt max_len hwf.1 (hwf.2 cnt hmem) (by omega)
  refine ⟨h1, h2, h3, h4, ?_⟩
  intro c hcm hcid
  rw [h4]
  unfold setOffset
  exact List.mem_map.mpr ⟨c, hcm, by rw [if_neg hcid]⟩

/-- Witness for C4: a consumer at offset 0 with `end` 2 has 2 unread bytes;
a read with max_len 5 returns both. -/
theorem c4_read_postcondition_witness :
    (kerneltalk_read 8 true
      { buffer := fun _ => 0, end_ := 2, clients := [{ id := 0, offset := 0 }] }
      { id := 0, offset := 0 } 5).2 =
    .ok ((List.range (min (DIST 8 0 2) 5)).map
      (fun j => (0 : Nat))) := by
  have h := (c4_read_postcondition 8 (by decide)
    { buffer := fun _ => 0, end_ := 2, clients := [{ id := 0, offset := 0 }] }
    (by constructor <;> decide) true { id := 0, offset := 0 } (by decide) 5
    (by decide)).1
  exact h

/-- C6: blocking_offset (the slowest_offset of the spec) returns `end` for an
empty registry, and otherwise the offset of the first consumer in registry
iteration order whose unread count attains the maximum; the returned offset
always attains the maximum unread count. -/
theorem c6_slowest_offset (N : Nat) (hN : 0 < N) (srv : Server) (hwf : WF N srv) :
    blocking_offset N srv = slowest_offset_spec N srv.end_ srv.clients ∧
    DIST N (blocking_offset N srv) srv.end_ = maxUnread N srv.end_ srv.clients ∧
    (srv.clients = [] → blocking_offset N srv = srv.end_) := by
  refine ⟨blocking_offset_eq_spec N srv hN hwf,
    (blocking_offset_attains N srv hwf).2, ?_⟩
  intro hnil
  unfold blocking_offset
  rw [hnil]
  rfl

/-- Witness for C6: two consumers with equal maximal unread counts at
capacity 8; the scan result matches the specification function. -/
theorem c6_slowest_offset_witness :
    blocking_offset 8
      { buffer := fun _ => 0, end_ := 3,
        clients := [{ id := 0, offset := 1 }, { id := 1, offset := 1 }] } =
    slowest_offset_spec 8 3 [{ id := 0, offset := 1 }, { id := 1, offset := 1 }] :=
  (c6_slowest_offset 8 (by decide)
    { buffer := fun _ => 0, end_ := 3,
      clients := [{ id := 0, offset := 1 }, { id := 1, offset := 1 }] }
    (by constructor <;> decide)).1

/-- C7: Non-blocking would-block atomicity: every non-blocking read made
when the caller has no unread data, and every non-blocking write made when
there is no room, fails with EAGAIN and returns the server state (end,
buffer and every consumer cursor) completely unchanged. -/
theorem c7_would_block (N : Nat) (srv : Server) (cnt : Client) (max_len : Nat)
    (bytes : List Nat) :
    (DIST N cnt.offset srv.end_ = 0 →
      kerneltalk_read N true srv cnt max_len = (srv, .error .EAGAIN)) ∧
    (room_to_write N srv = 0 →
      kerneltalk_write N true srv bytes = (srv, .error .EAGAIN)) :=
  ⟨fun hu => kerneltalk_read_blocked N true srv cnt max_len hu,
   fun hroom => kerneltalk_write_blocked N true srv bytes hroom⟩

/-- Witness for C7 at capacity 8: the read half on a single fully caught-up
consumer (unread 0 while room is 7), the write half on a channel whose
slowest consumer is 7 bytes behind (room 0). -/
theorem c7_would_block_witness :
    kerneltalk_read 8 true
      { buffer := fun _ => 0, end_ := 0, clients := [{ id := 0, offset := 0 }] }
      { id := 0, offset := 0 } 4 =
      ({ buffer := (fun _ => 0), end_ := 0, clients := [{ id := 0, offset := 0 }] },
       .error .EAGAIN) ∧
    kerneltalk_write 8 true
      { buffer := fun _ => 0, end_ := 0,
        clients := [{ id := 0, offset := 1 }, { id := 1, offset := 0 }] }
      [9] =
      ({ buffer := (fun _ => 0), end_ := 0, clients := [{ id := 0, offset := 1 }, { id := 1, offset := 0 }] },
       .error .EAGAIN) :=
  ⟨(c7_would_block 8
      { buffer := fun _ => 0, end_ := 0, clients := [{ id := 0, offset := 0 }] }
      { id := 0, offset := 0 } 4 [9]).1 (by decide),
   (c7_would_block 8
      { buffer := fun _ => 0, end_ := 0,
        clients := [{ id := 0, offset := 1 }, { id := 1, offset := 0 }] }
      { id := 1, offset := 0 } 4 [9]).2 (by decide)⟩

/-- C10: Zero-length edge case: every non-blocking read with max_len 0 made
when the caller has no unread data, and every non-blocking write of the
empty sequence made when there is no room, fails with EAGAIN rather than
returning the count 0, because the availability check runs before the
requested length is ever examined. -/
theorem c10_zero_length (N : Nat) (srv : Server) (cnt : Client) :
    (DIST N cnt.offset srv.end_ = 0 →
      kerneltalk_read N true srv cnt 0 = (srv, .error .EAGAIN)) ∧
    (room_to_write N srv = 0 →
      kerneltalk_write N true srv [] = (srv, .error .EAGAIN)) :=
  ⟨fun hu => kerneltalk_read_blocked N true srv cnt 0 hu,
   fun hroom => kerneltalk_write_blocked N true srv [] hroom⟩

/-- Witness for C10 at capacity 8: a zero-length read on a single fully
caught-up consumer (unread 0 while room is 7), and an empty write on a
channel whose slowest consumer is 7 bytes behind (room 0). -/
theorem c10_zero_length_witness :
    kerneltalk_read 8 true
      { buffer := fun _ => 0, end_ := 0, clients := [{ id := 0, offset := 0 }] }
      { id := 0, offset := 0 } 0 =
      ({ buffer := (fun _ => 0), end_ := 0, clients := [{ id := 0, offset := 0 }] },
       .error .EAGAIN) ∧
    kerneltalk_write 8 true
      { buffer := fun _ => 0, end_ := 0,
        clients := [{ id := 0, offset := 1 }, { id := 1, offset := 0 }] }
      [] =
      ({ buffer := (fun _ => 0), end_ := 0, clients := [{ id := 0, offset := 1 }, { id := 1, offset := 0 }] },
       .error .EAGAIN) :=
  ⟨(c10_zero_length 8
      { buffer := fun _ => 0, end_ := 0, clients := [{ id := 0, offset := 0 }] }
      { id := 0, offset := 0 }).1 (by decide),
   (c10_zero_length 8
      { buffer := fun _ => 0, end_ := 0,
        clients := [{ id := 0, offset := 1 }, { id := 1, offset := 0 }] }
      { id := 1, offset := 0 }).2 (by decide)⟩

/-- C5: Backpressure: with two consumers A and B where B is T bytes behind
(the slowest) and A is at most T - k bytes behind, the room is exactly
N - 1 - T; once T reaches N - 1 a non-blocking write fails with EAGAIN and
no successful write ever returns more than N - 1 - T bytes; and after B
reads k bytes the room is exactly k larger. -/
theorem c5_backpressure (N : Nat) (hN : 0 < N) (srv : Server) (A B : Client)
    (hcl : srv.clients = [A, B]) (hid : A.id ≠ B.id) (hwf : WF N srv)
    (T k : Nat) (hT : DIST N B.offset srv.end_ = T)
    (hA : DIST N A.offset srv.end_ ≤ T - k) (hk : k ≤ T) :
    room_to_write N srv = N - 1 - T ∧
    (T = N - 1 → ∀ bytes, kerneltalk_write N true srv bytes = (srv, .error .EAGAIN)) ∧
    (∀ bytes w, (kerneltalk_write N true srv bytes).2 = .ok w → w ≤ N - 1 - T) ∧
    room_to_write N (kerneltalk_read N true srv B k).1 = (N - 1 - T) + k := by
  have he : srv.end_ < N := hwf.1
  have hoA : A.offset < N := hwf.2 A (by rw [hcl]; simp)
  have hoB : B.offset < N := hwf.2 B (by rw [hcl]; simp)
  have hTlt : T < N := by
    rw [← hT]
    exact DIST_lt N B.offset srv.end_ hoB he
  have hmax : maxUnread N srv.end_ srv.clients = T := by
    rw [hcl]
    unfold maxUnread
    simp only [List.foldl_cons, List.foldl_nil]
    rw [Nat.max_eq_right (Nat.zero_le _), hT, Nat.max_eq_right (by omega)]
  have hroom1 : room_to_write N srv = N - 1 - T := by
    rw [room_eq N srv hN hwf, hmax]
  refine ⟨hroom1, ?_, ?_, ?_⟩
  · intro hTN bytes
    exact kerneltalk_write_blocked N true srv bytes (by omega)
  · intro bytes w hw
    by_cases h0 : room_to_write N srv = 0
    · rw [kerneltalk_write_blocked N true srv bytes h0] at hw
      simp at hw
    · have hok := (kerneltalk_write_ok N true srv bytes hN he h0).1
      rw [hok] at hw
      have hwe := Except.ok.inj hw
      have hle := Nat.min_le_left (room_to_write N srv) bytes.length
      omega
  · by_cases hu : DIST N B.offset srv.end_ = 0
    · have hT0 : T = 0 := by omega
      rw [kerneltalk_read_blocked N true srv B k hu]
      show room_to_write N srv = (N - 1 - T) + k
      omega
    · obtain ⟨-, hend', -, hcl'⟩ := kerneltalk_read_ok N true srv B k he hoB hu
      have hmink : min (DIST N B.offset srv.end_) k = k := by
        rw [hT]
        exact Nat.min_eq_right hk
      have hset : (kerneltalk_read N true srv B k).1.clients =
          [A, { B with offset := (B.offset + k) % N }] := by
        rw [hcl', hcl]
        unfold setOffset
        simp [hid, hmink]
      have hwf' : WF N (kerneltalk_read N true srv B k).1 := by
        refine ⟨by rw [hend']; exact he, ?_⟩
        rw [hset]
        intro c hc
        rcases List.mem_cons.mp hc with h | h
        · subst h
          exact hoA
        · have hcB : c = { B with offset := (B.offset + k) % N } := by
            simpa using h
          rw [hcB]
          exact Nat.mod_lt _ hN
      have hdB : DIST N ((B.offset + k) % N) srv.end_ = T - k := by
        rw [← hT]
        exact DIST_consume N B.offset srv.end_ k hoB he (by omega)
      rw [room_eq N _ hN hwf', hend', hset]
      unfold maxUnread
      simp only [List.foldl_cons, List.foldl_nil]
      rw [Nat.max_eq_right (Nat.zero_le _), hdB, Nat.max_eq_right (by omega)]
      omega

/-- Witness for C5 at capacity 8: consumer B is 3 bytes behind, consumer A
is drained, so the room is 8 - 1 - 3 = 4. -/
theorem c5_backpressure_witness :
    room_to_write 8
      { buffer := (fun _ => 0), end_ := 3,
        clients := [{ id := 0, offset := 3 }, { id := 1, offset := 0 }] } =
      8 - 1 - 3 :=
  (c5_backpressure 8 (by decide)
    { buffer := (fun _ => 0), end_ := 3,
      clients := [{ id := 0, offset := 3 }, { id := 1, offset := 0 }] }
    { id := 0, offset := 3 } { id := 1, offset := 0 } rfl (by decide)
    (by constructor <;> decide) 3 2 (by decide) (by decide) (by decide)).1

theorem take_eq_range_map (l : List Nat) (K : Nat) (hK : K ≤ l.length) :
    l.take K = (List.range K).map (fun j => l.getD j 0) := by
  have hlen : (l.take K).length = K := by
    rw [List.length_take]
    omega
  calc l.take K
      = (List.range (l.take K).length).map (fun j => (l.take K).getD j 0) :=
        (range_map_getD (l.take K)).symm
    _ = (List.range K).map (fun j => (l.take K).getD j 0) := by rw [hlen]
    _ = (List.range K).map (fun j => l.getD j 0) := by
        apply List.map_congr_left
        intro j hj
        have hjK : j < K := List.mem_range.mp hj
        rw [List.getD_eq_getElem _ _ (by omega), List.getD_eq_getElem _ _ (by omega)]
        rw [List.getElem_take]

/-- C8: Late joiner isolation: a freshly joined consumer starts with unread
count 0 at the channel's current `end`, and its first successful read after
one subsequent write returns exactly a prefix of the newly written bytes,
hence none of the bytes present before the join. -/
theorem c8_late_joiner (N : Nat) (hN : 0 < N) (srv0 : Server) (hwf : WF N srv0)
    (cid : Nat) (bytes : List Nat) (max_len : Nat) (hbytes : bytes ≠ [])
    (hroom : room_to_write N (create_client cid srv0).2 ≠ 0) :
    DIST N (create_client cid srv0).1.offset (create_client cid srv0).2.end_ = 0 ∧
    (kerneltalk_read N true
        (kerneltalk_write N true (create_client cid srv0).2 bytes).1
        (create_client cid srv0).1 max_len).2 =
      .ok (bytes.take
        (min (min (room_to_write N (create_client cid srv0).2) bytes.length)
          max_len)) := by
  have he : srv0.end_ < N := hwf.1
  constructor
  · exact DIST_self N srv0.end_
  · set srv1 := (create_client cid srv0).2 with hsrv1
    have he1 : srv1.end_ < N := he
    obtain ⟨hok, hend2, hcl2, hcontent, hunch⟩ :=
      kerneltalk_write_ok N true srv1 bytes hN he1 hroom
    set w := min (room_to_write N srv1) bytes.length with hw
    have hwle : w ≤ room_to_write N srv1 := by
      have h := Nat.min_le_left (room_to_write N srv1) bytes.length
      rw [← hw] at h
      exact h
    have hwlen : w ≤ bytes.length := by
      have h := Nat.min_le_right (room_to_write N srv1) bytes.length
      rw [← hw] at h
      exact h
    have hwpos : 0 < w := by
      have hlp : 0 < bytes.length := List.length_pos.mpr hbytes
      have h := Nat.lt_min.mpr ⟨Nat.pos_of_ne_zero hroom, hlp⟩
      rw [← hw] at h
      exact h
    have hwN : w < N := by
      have h := room_to_write_lt N srv1 hN he1
      omega
    have hu2 : DIST N (create_client cid srv0).1.offset
        (kerneltalk_write N true srv1 bytes).1.end_ = w := by
      rw [hend2]
      exact DIST_add_self N srv1.end_ w he1 hwN
    obtain ⟨hrok, -, -, -⟩ := kerneltalk_read_ok N true
      (kerneltalk_write N true srv1 bytes).1 (create_client cid srv0).1 max_len
      (by rw [hend2]; exact Nat.mod_lt _ hN) he (by rw [hu2]; omega)
    rw [hrok, hu2]
    congr 1
    rw [take_eq_range_map bytes (min w max_len)
      (by have h := Nat.min_le_left w max_len; omega)]
    apply List.map_congr_left
    intro j hj
    have hjw : j < min w max_len := List.mem_range.mp hj
    have hcj := hcontent j (by have h := Nat.min_le_left w max_len; omega)
    exact hcj

/-- Witness for C8: joining an empty channel at capacity 8, writing three
bytes and reading up to two returns the first two written bytes. -/
theorem c8_late_joiner_witness :
    DIST 8 (create_client 0 init_server).1.offset
      (create_client 0 init_server).2.end_ = 0 ∧
    (kerneltalk_read 8 true
        (kerneltalk_write 8 true (create_client 0 init_server).2 [4, 5, 6]).1
        (create_client 0 init_server).1 2).2 =
      .ok ([4, 5, 6].take
        (min (min (room_to_write 8 (create_client 0 init_server).2)
          [4, 5, 6].length) 2)) :=
  c8_late_joiner 8 (by decide) init_server (by constructor <;> decide) 0
    [4, 5, 6] 2 (by decide) (by decide)

/-- C2: Per-consumer completeness and order: a consumer joins, the producer
then issues write calls for B1, ..., Bk, each call transferring its whole
sequence, with total length at most N - 1; when that consumer afterwards
reads repeatedly until its unread count is 0, the concatenation of the bytes
it received is exactly B1 ++ ... ++ Bk, byte for byte and in order. -/
theorem c2_completeness_order (N : Nat) (hN : 0 < N) (srv0 : Server) (hwf : WF N srv0)
    (cid : Nat) (bss : List (List Nat)) (lens : List Nat)
    (hfull : allFull N (create_client cid srv0).2 bss = true)
    (htot : totalLen bss ≤ N - 1)
    (hdrain : DIST N
        (readSeq N (writeAll N (create_client cid srv0).2 bss)
          (create_client cid srv0).1 lens).2.1.offset
        (writeAll N (create_client cid srv0).2 bss).end_ = 0) :
    (readSeq N (writeAll N (create_client cid srv0).2 bss)
      (create_client cid srv0).1 lens).2.2 = bss.flatten := by
  have hoff : srv0.end_ < N := hwf.1
  have hs1e : (create_client cid srv0).2.end_ = (srv0.end_ + 0) % N := by
    show srv0.end_ = (srv0.end_ + 0) % N
    rw [Nat.add_zero, Nat.mod_eq_of_lt hoff]
  obtain ⟨hend2, hcl2, hpre, hnew⟩ :=
    writeAll_region N hN srv0.end_ hoff bss (create_client cid srv0).2 0 hs1e hfull
      (by omega)
  have hend2' : (writeAll N (create_client cid srv0).2 bss).end_ =
      (srv0.end_ + totalLen bss) % N := by
    rw [hend2]
    congr 1
    omega
  have he2 : (writeAll N (create_client cid srv0).2 bss).end_ < N := by
    rw [hend2']
    exact Nat.mod_lt _ hN
  obtain ⟨-, -, -, hdr⟩ := readSeq_spec N hN lens
    (writeAll N (create_client cid srv0).2 bss) (create_client cid srv0).1 he2 hoff
  rw [hdr hdrain]
  have hu : DIST N (create_client cid srv0).1.offset
      (writeAll N (create_client cid srv0).2 bss).end_ = totalLen bss := by
    rw [hend2']
    exact DIST_add_self N srv0.end_ (totalLen bss) hoff (by omega)
  rw [hu]
  have hnew' : ∀ j, j < totalLen bss →
      (writeAll N (create_client cid srv0).2 bss).buffer ((srv0.end_ + j) % N) =
        bss.flatten.getD j 0 := by
    intro j hj
    have h := hnew j hj
    rwa [Nat.zero_add] at h
  have hlen : bss.flatten.length = totalLen bss := by
    rw [List.length_flatten]
    rfl
  conv_rhs => rw [← range_map_getD bss.flatten]
  rw [hlen]
  apply List.map_congr_left
  intro j hj
  exact hnew' j (List.mem_range.mp hj)

/-- Witness for C2 at capacity 8: a consumer joins the fresh channel, the
producer writes [1, 2] then [3], and reads of up to 2 then up to 5 bytes
drain the channel and return [1, 2, 3]. -/
theorem c2_completeness_order_witness :
    (readSeq 8 (writeAll 8 (create_client 0 init_server).2 [[1, 2], [3]])
      (create_client 0 init_server).1 [2, 5]).2.2 = [[1, 2], [3]].flatten :=
  c2_completeness_order 8 (by decide) init_server (by constructor <;> decide) 0
    [[1, 2], [3]] [2, 5] (by decide) (by decide) (by decide)

/-- C9 (counterexample): the claimed lock order does not hold in the code:
on the kerneltalk_write path, which holds both the buffer lock and the
client list (registry) lock, the registry lock is never acquired before the
buffer lock; instead the buffer lock is held when the registry lock is
acquired (inside room_to_write). -/
theorem c9_lock_order_counterexample :
    (Lock.client_list_lock, Lock.buffer_lock) ∉
      acquiredWhileHolding write_lock_trace ∧
    (Lock.buffer_lock, Lock.client_list_lock) ∈
      acquiredWhileHolding write_lock_trace := by
  decide

/-- C9 (amended): on every code path of the module that holds both the
registry (client list) lock and the buffer lock - the write path and the
poll path - the buffer lock is acquired first and the registry lock is
taken while it is held, never the reverse; and on the open path the
directory (server list) lock is acquired before the registry lock. This
order is consistent across paths, which is what prevents deadlock. -/
theorem c9_lock_order_amended :
    ((Lock.buffer_lock, Lock.client_list_lock) ∈
        acquiredWhileHolding write_lock_trace ∧
      (Lock.client_list_lock, Lock.buffer_lock) ∉
        acquiredWhileHolding write_lock_trace) ∧
    ((Lock.buffer_lock, Lock.client_list_lock) ∈
        acquiredWhileHolding poll_lock_trace ∧
      (Lock.client_list_lock, Lock.buffer_lock) ∉
        acquiredWhileHolding poll_lock_trace) ∧
    ((Lock.server_list_lock, Lock.client_list_lock) ∈
        acquiredWhileHolding open_lock_trace ∧
      (Lock.client_list_lock, Lock.server_list_lock) ∉
        acquiredWhileHolding open_lock_trace) := by
  decide
